import Mathlib

/-!
Verification development for a read-only SQL schema workbench.

The program under study has four cores that the claims address:
* a lexical SQL safety gate (`strip_sql_comments`, `contains_dangerous_sql`,
  `execute_select`),
* a foreign-key join-path search over a schema graph (`find_join_path`),
* a dialect renderer and query synthesizer (`q`, `render_select`,
  `render_limit`, `sql_preview_single`),
* catalog introspection (`get_schema`) and term discovery (`discover_term`).

Each definition is a shallow embedding of the corresponding Python
function, translated statement by statement.  Machine-level details that
the source delegates to the runtime are embedded as follows: regular
expressions are expanded into the character scans they denote, the
database connection is a `Bool`/`Option` flag plus an oracle record, and
the driver call `pd.read_sql_query` is represented by the `executed`
outcome carrying the cleaned SQL that would be executed.
-/

namespace SqlWorkbench

/-- Python `str.strip` whitespace set (space, tab, newline, CR, VT, FF). -/
def isWs (c : Char) : Bool :=
  c == ' ' || c == '\t' || c == '\n' || c == '\r' || c == '\x0b' || c == '\x0c'

/-- Drop leading characters satisfying `isWs`. -/
def dropWs : List Char → List Char
  | [] => []
  | c :: r => if isWs c then dropWs r else c :: r

/-- Python `str.strip`: trim whitespace from both ends. -/
def trimChars (l : List Char) : List Char :=
  (dropWs ((dropWs l).reverse)).reverse

/-- Embedding of `re.sub(r'--.*?$', '', sql, flags=re.MULTILINE)`: delete
from each `--` to the end of its line (the newline itself is kept).  The
Boolean state records whether the scan is currently inside a line
comment. -/
def stripLineAux : Bool → List Char → List Char
  | _, [] => []
  | true, c :: r => if c == '\n' then c :: stripLineAux false r else stripLineAux true r
  | false, '-' :: '-' :: r2 => stripLineAux true r2
  | false, c :: r => c :: stripLineAux false r

/-- Find the first `*/` and return the suffix after it, if any. -/
def dropClose : List Char → Option (List Char)
  | [] => none
  | '*' :: '/' :: r => some r
  | _ :: r => dropClose r

/-- Embedding of `re.sub(r'/\*.*?\*/', '', sql, flags=re.DOTALL)`:
each leftmost `/*` paired with the nearest following `*/` is deleted; an
unclosed `/*` is left in place.  Fueled to keep the recursion structural;
the seed fuel `l.length` always suffices because every recursive call
strictly shrinks the list. -/
def stripBlockF : Nat → List Char → List Char
  | 0, l => l
  | _ + 1, [] => []
  | fuel + 1, c :: r =>
    if c == '/' then
      match r with
      | '*' :: r2 =>
        match dropClose r2 with
        | some r3 => stripBlockF fuel r3
        | none => c :: '*' :: stripBlockF fuel r2
      | _ => c :: stripBlockF fuel r
    else c :: stripBlockF fuel r

/-- `strip_sql_comments`: line comments, then block comments, then strip. -/
def strip_sql_comments (sql : String) : String :=
  String.mk (trimChars (stripBlockF (stripLineAux false sql.toList).length
    (stripLineAux false sql.toList)))

/-- Regex word character (`\w`), ASCII fragment: letters, digits, underscore. -/
def isWordChar (c : Char) : Bool := c.isAlphanum || c == '_'

/-- A word boundary (`\b`) holds at the string edge or next to a non-word
character. -/
def boundaryOk : Option Char → Bool
  | none => true
  | some c => !isWordChar c

/-- Case-insensitive prefix test. -/
def ciPre : List Char → List Char → Bool
  | [], _ => true
  | _ :: _, [] => false
  | a :: as, b :: bs => (a.toLower == b.toLower) && ciPre as bs

/-- Embedding of `re.search(rf'\b{word}\b', sql, re.IGNORECASE)`: scan every
position of `s`, carrying the previous character for the left boundary. -/
def findWord (w : List Char) : Option Char → List Char → Bool
  | before, [] => ciPre w [] && boundaryOk before
  | before, c :: r =>
    (boundaryOk before && ciPre w (c :: r) && boundaryOk ((c :: r).drop w.length).head?)
    || findWord w (some c) r

/-- The fixed denylist, in source order. -/
def dangerousKeywords : List String :=
  ["INSERT", "UPDATE", "DELETE", "DROP", "ALTER", "TRUNCATE",
   "CREATE", "REPLACE", "ATTACH", "DETACH", "PRAGMA"]

/-- `contains_dangerous_sql`: first denylisted keyword occurring as a
case-insensitive whole word, if any. -/
def contains_dangerous_sql (sql : String) : Option String :=
  dangerousKeywords.find? (fun w => findWord w.toList none sql.toList)

/-- Outcome of `execute_select`.  `executed cleaned` marks the point where
the source hands `cleaned` to `pd.read_sql_query`, i.e. the statement is
actually executed against the backend. -/
inductive ExecOutcome where
  | error (msg : String)
  | warning (msg : String)
  | executed (cleaned : String)
deriving DecidableEq

/-- The multi-statement refusal message from the source. -/
def multiStatementMessage : String :=
  "Multiple SQL statements detected. Only single SELECT statements are allowed."

/-- The keyword refusal message from the source. -/
def dangerousMessage (w : String) : String :=
  "This query contains `" ++ w ++ "`. Execution is blocked to prevent data changes."

/-- Drop leading semicolons (used reversed to model `str.rstrip(";")`). -/
def dropSemis : List Char → List Char
  | [] => []
  | c :: r => if c == ';' then dropSemis r else c :: r

/-- Character membership in a list. -/
def hasChar (c : Char) : List Char → Bool
  | [] => false
  | a :: r => a == c || hasChar c r

/-- Embedding of `";" in cleaned.rstrip(";")`. -/
def hasExtraSemicolon (cleaned : String) : Bool :=
  hasChar ';' (dropSemis cleaned.toList.reverse).reverse

/-- Python `str.upper` on the ASCII identifiers involved. -/
def upperChars (l : List Char) : List Char := l.map Char.toUpper

/-- Exact prefix test. -/
def matchesPre : List Char → List Char → Bool
  | [], _ => true
  | _ :: _, [] => false
  | a :: as, b :: bs => a == b && matchesPre as bs

/-- Embedding of `cleaned.upper().strip().startswith('SELECT')`. -/
def startsWithSelect (cleaned : String) : Bool :=
  matchesPre "SELECT".toList (trimChars (upperChars cleaned.toList))

/-- `DatabaseEngine.execute_select`.  `connected` embeds `self.conn`
being live; the four guards appear in source order, and the fall-through
is the actual execution of the cleaned SQL. -/
def execute_select (connected : Bool) (sql : String) : ExecOutcome :=
  if connected = false then .error "Not connected to database"
  else if trimChars sql.toList = [] then .warning "No SQL provided."
  else
    let cleaned := strip_sql_comments sql
    if hasExtraSemicolon cleaned then .warning multiStatementMessage
    else
      match contains_dangerous_sql cleaned with
      | some w => .warning (dangerousMessage w)
      | none =>
        if startsWithSelect cleaned = false then .warning "Only SELECT queries are allowed."
        else .executed cleaned

/-- Boolean membership test on a list of strings (Python `in`). -/
def memB (x : String) : List String → Bool
  | [] => false
  | a :: l => x == a || memB x l

/-- One join step `(left_table, right_table, left_column, right_column)`. -/
abbrev JoinStep := String × String × String × String

/-- `DatabaseSchema`: tables, columns per table, and directed foreign-key
triples `(referenced_table, local_column, referenced_column)` per table.
The Python dicts are embedded as association lists. -/
structure DatabaseSchema where
  tables : List String
  columns : List (String × List String)
  relationships : List (String × List (String × String × String))
deriving DecidableEq

/-- `self.relationships.get(t, [])`. -/
def relGet (m : DatabaseSchema) (t : String) : List (String × String × String) :=
  match m.relationships.find? (fun pr => pr.1 == t) with
  | some pr => pr.2
  | none => []

/-- `self.columns.get(t, [])` (the body of `get_columns`). -/
def colGet (m : DatabaseSchema) (t : String) : List String :=
  match m.columns.find? (fun pr => pr.1 == t) with
  | some pr => pr.2
  | none => []

/-- Concatenation of `f` over a list (nested `for` loops that append). -/
def catMap (f : α → List β) : List α → List β
  | [] => []
  | a :: l => f a ++ catMap f l

/-- The queue entries appended by one loop iteration of `find_join_path`:
first the forward edges of `current` (entries of `relationships[current]`
whose target is unvisited), then, for every unvisited table, its edges
pointing back at `current`, with the column pair swapped. -/
def expandPushes (m : DatabaseSchema) (current : String) (path : List JoinStep)
    (visited : List String) : List (String × List JoinStep) :=
  ((relGet m current).filter (fun e => !memB e.1 visited)).map
      (fun e => (e.1, path ++ [(current, e.1, e.2.1, e.2.2)]))
  ++ catMap (fun t =>
        ((relGet m t).filter (fun e => e.1 == current)).map
          (fun e => (t, path ++ [(current, t, e.2.2, e.2.1)])))
      (m.tables.filter (fun t => !memB t visited))

/-- The loop state of `find_join_path`: the BFS queue of
`(current_table, path_so_far)` pairs, the unresolved target set and the
visited set (Python sets embedded as duplicate-free lists). -/
structure BfsState where
  queue : List (String × List JoinStep)
  targets : List String
  visited : List String
deriving DecidableEq

/-- One iteration of the `while queue:` loop of `find_join_path`.
`Sum.inr r` is a `return` from the Python function (`r = none` for the
fall-through `return None` on queue exhaustion); `Sum.inl s` continues
the loop in state `s`.  When a target is reached with targets left the
queue is restarted from the hub and the visited set reset, after which
the same iteration visits the hub and appends its pushes. -/
def step (m : DatabaseSchema) : BfsState → BfsState ⊕ Option (List JoinStep)
  | ⟨[], _, _⟩ => .inr none
  | ⟨(current, path) :: rest, targets, visited⟩ =>
    if current ∈ targets then
      if targets.erase current = [] then .inr (some path)
      else .inl ⟨(current, path) :: expandPushes m current path [current],
                 targets.erase current, [current]⟩
    else if current ∈ visited then .inl ⟨rest, targets, visited⟩
    else .inl ⟨rest ++ expandPushes m current path (current :: visited),
               targets, current :: visited⟩

/-- Fueled iteration of `step`: `none` means the fuel ran out, `some r`
is the value returned by the Python loop. -/
def runBfs (m : DatabaseSchema) : Nat → BfsState → Option (Option (List JoinStep))
  | 0, _ => none
  | fuel + 1, s =>
    match step m s with
    | .inr r => some r
    | .inl s' => runBfs m fuel s'

/-- `DatabaseSchema.find_join_path`.  `some none` is the Python `None`,
`some (some plan)` a returned plan, `none` fuel exhaustion (the
termination theorem shows sufficient fuel always exists).  `rest.dedup`
embeds `set(tables[1:])`. -/
def find_join_path (m : DatabaseSchema) (fuel : Nat) :
    List String → Option (Option (List JoinStep))
  | [] => some none
  | [_] => some none
  | t0 :: rest => runBfs m fuel ⟨[(t0, [])], rest.dedup, []⟩

/-- A join step is a real relationship edge of the model, in either
direction: forward `relationships[l] ∋ (r, lc, rc)` or reverse
`relationships[r] ∋ (l, rc, lc)`. -/
def isEdge (m : DatabaseSchema) (st : JoinStep) : Prop :=
  (st.2.1, st.2.2.1, st.2.2.2) ∈ relGet m st.1 ∨
  (st.1, st.2.2.2, st.2.2.1) ∈ relGet m st.2.1

/-- Undirected adjacency as traversed by the BFS: a forward edge out of
`u`, or a reverse edge from a table `v` of the model pointing at `u`. -/
def Adjacent (m : DatabaseSchema) (u v : String) : Prop :=
  (∃ e ∈ relGet m u, e.1 = v) ∨ (v ∈ m.tables ∧ ∃ e ∈ relGet m v, e.1 = u)

/-- Reachability along `Adjacent`. -/
def ReachableFrom (m : DatabaseSchema) : String → String → Prop :=
  Relation.ReflTransGen (Adjacent m)

/-- Every table name `expandPushes` can ever enqueue: the model's tables
plus every referenced table of every relationship list. -/
def pushUniv (m : DatabaseSchema) : List String :=
  m.tables ++ catMap (fun pr => pr.2.map (fun e => e.1)) m.relationships

/-- Count of universe elements not yet visited (the second component of
the BFS termination measure). -/
def unvis (u visited : List String) : Nat :=
  (u.filter (fun x => !memB x visited)).length

/-- The SQL dialect tag. -/
inductive SQLDialect where
  | sqlite | postgres | sqlserver | mysql
deriving DecidableEq

/-- `q`: identifier quoting per dialect. -/
def q (name : String) (d : SQLDialect) : String :=
  match d with
  | .sqlserver => "[" ++ name ++ "]"
  | .mysql => "`" ++ name ++ "`"
  | _ => "\"" ++ name ++ "\""

/-- `render_select`: Python's `if d == SQLDialect.SQLSERVER and limit:`
(falsy for `None` and `0`). -/
def render_select (d : SQLDialect) (limit : Option Nat) : String :=
  match limit with
  | some n => if d = SQLDialect.sqlserver ∧ n ≠ 0 then "SELECT TOP " ++ toString n else "SELECT"
  | none => "SELECT"

/-- `render_limit`: empty for SQL Server, trailing LIMIT clause otherwise. -/
def render_limit (d : SQLDialect) (limit : Nat) : String :=
  if d = SQLDialect.sqlserver then "" else "LIMIT " ++ toString limit

/-- The single-table draft of the query builder (`sql_preview` when
`len(tables_to_join) == 1`):
`f'{render_select(d)}\n  *\nFROM {q(tables_to_join[0], d)}\n{render_limit(d, 10)}'`.
Note the source calls `render_select` without a limit argument here. -/
def sql_preview_single (d : SQLDialect) (t : String) : String :=
  render_select d none ++ "\n  *\nFROM " ++ q t d ++ "\n" ++ render_limit d 10

/-- The catalog oracle behind `SQLiteEngine.get_schema`: the table-list
query, and the per-table `PRAGMA table_info` / `PRAGMA foreign_key_list`
queries, each of which may raise (`Except.error`). -/
structure CatalogBackend where
  listTablesQ : Except String (List String)
  tableInfoQ : String → Except String (List String)
  fkListQ : String → Except String (List (String × String × String))

/-- The `try:` body of `SQLiteEngine.get_schema`: a failing table-list
query hits the outer `except` and yields the empty model; a failing
per-table column query is caught inside the loop (`columns[t] = []`); a
failing or empty per-table foreign-key query leaves `t` out of the
relationships dict. -/
def introspect_sqlite (b : CatalogBackend) : DatabaseSchema :=
  match b.listTablesQ with
  | .error _ => ⟨[], [], []⟩
  | .ok tables =>
    ⟨tables,
     tables.map (fun t => (t, match b.tableInfoQ t with | .ok cs => cs | .error _ => [])),
     tables.filterMap (fun t =>
       match b.fkListQ t with
       | .error _ => none
       | .ok [] => none
       | .ok fks => some (t, fks))⟩

/-- `SQLiteEngine.get_schema`: return the cache when set, the empty model
when disconnected, otherwise introspect. -/
def get_schema (cache : Option DatabaseSchema) (conn : Option CatalogBackend) :
    DatabaseSchema :=
  match cache with
  | some s => s
  | none =>
    match conn with
    | none => ⟨[], [], []⟩
    | some b => introspect_sqlite b

/-- Code-point comparison of strings as char lists (Python `<` on str). -/
def charsLe : List Char → List Char → Bool
  | [], _ => true
  | _ :: _, [] => false
  | a :: as, b :: bs => if a == b then charsLe as bs else decide (a < b)

/-- Insert into a sorted list (ascending, stable). -/
def insertSorted (a : String) : List String → List String
  | [] => [a]
  | b :: l => if charsLe a.toList b.toList then a :: b :: l else b :: insertSorted a l

/-- Insertion sort, embedding Python `sorted`. -/
def sortStr : List String → List String
  | [] => []
  | a :: l => insertSorted a (sortStr l)

/-- `DatabaseSchema.get_tables`: `sorted(self.tables)`. -/
def get_tables (m : DatabaseSchema) : List String := sortStr m.tables

/-- Python `str.lower` on ASCII identifiers. -/
def lowerStr (s : String) : String := String.mk (s.toList.map Char.toLower)

/-- Substring test (Python `in` on strings). -/
def hasSub (pat : List Char) : List Char → Bool
  | [] => matchesPre pat []
  | c :: r => matchesPre pat (c :: r) || hasSub pat r

/-- Split at the first `'.'`, as `name.split(".", 1)` after an `in` check. -/
def splitDotAux (acc : List Char) : List Char → Option (String × String)
  | [] => none
  | c :: r => if c == '.' then some (String.mk acc.reverse, String.mk r) else splitDotAux (c :: acc) r

/-- `some (table, column)` when the name contains a dot, else `none`. -/
def splitDot (name : String) : Option (String × String) := splitDotAux [] name.toList

/-- The discovery search space: every table name followed by its
`table.column` identifiers, tables in sorted order. -/
def searchSpace (m : DatabaseSchema) : List String :=
  catMap (fun t => t :: (colGet m t).map (fun c => t ++ "." ++ c)) (get_tables m)

/-- The per-name match test of `discover_term`: qualified names match on
the column part, bare names on the whole name, both case-insensitively. -/
def matchName (termLower : String) (name : String) : Bool :=
  match splitDot name with
  | some (_, col) => hasSub termLower.toList (lowerStr col).toList
  | none => hasSub termLower.toList (lowerStr name).toList

/-- The fixed `custom_synonyms` table from the source. -/
def custom_synonyms : List (String × List String) :=
  [("sold", ["orders", "orderdetails", "quantity", "sales"]),
   ("sales", ["orders", "orderdetails", "unitprice", "quantity"]),
   ("revenue", ["unitprice", "quantity", "discount", "orders"]),
   ("bought", ["orders", "orderdetails"]), ("purchased", ["orders", "orderdetails"]),
   ("income", ["unitprice", "orders"]), ("amount", ["quantity", "unitprice"]),
   ("buyer", ["customers", "customerid"]), ("customer", ["customers", "customerid"]),
   ("worker", ["employees", "employeeid"]), ("employee", ["employees", "employeeid"]),
   ("staff", ["employees", "employeeid"]), ("item", ["products", "productid"]),
   ("product", ["products", "productid"]), ("goods", ["products", "productid"]),
   ("supplier", ["suppliers", "supplierid"]), ("vendor", ["suppliers", "supplierid"]),
   ("shipper", ["shippers", "shipperid"]), ("carrier", ["shippers", "shipperid"]),
   ("category", ["categories", "categoryid"]), ("type", ["categories", "categoryid"]),
   ("discontinued", ["discontinued"]), ("freight", ["freight"]),
   ("shipping", ["freight", "shippers"])]

/-- `term_lower in custom_synonyms` plus the lookup. -/
def synLookup (t : String) : Option (List String) :=
  match custom_synonyms.find? (fun pr => pr.1 == t) with
  | some pr => some pr.2
  | none => none

/-- Stage 1 of discovery: direct case-insensitive substring matches of the
term over the search space (the Python match set, as a list with the same
membership). -/
def stage1 (m : DatabaseSchema) (term : String) : List String :=
  (searchSpace m).filter (matchName (lowerStr term))

/-- Stage 2 of discovery: substring matches of each synonym of the term,
empty when the term has no synonym entry. -/
def stage2 (m : DatabaseSchema) (term : String) : List String :=
  match synLookup (lowerStr term) with
  | none => []
  | some syns => catMap (fun syn => (searchSpace m).filter (matchName (lowerStr syn))) syns

/-- `discover_term`.  Returns the match set and the stage-3 close-match
suggestions.  `closeMatches` is the `difflib.get_close_matches` oracle
(with `n=3, cutoff=0.6` baked in); it is consulted only when both match
stages are empty, and its output goes only into the guidance component,
never into the match set.  The formatted explanation strings of the
source are presentation-only and elided; the suggestions component
carries the stage-3 payload they would render. -/
def discover_term (closeMatches : String → List String → List String)
    (m : DatabaseSchema) (term : String) : List String × List String :=
  let m1 := stage1 m term
  let mset := if m1 = [] then stage2 m term else m1
  let suggestions :=
    if mset = [] then closeMatches (lowerStr term) ((searchSpace m).map lowerStr) else []
  (mset, suggestions)

/-- The two-table model of Scenario 1: `Orders → Customers` via
`(Customers, CustomerID, CustomerID)`. -/
def mScenario : DatabaseSchema :=
  ⟨["Orders", "Customers"], [], [("Orders", [("Customers", "CustomerID", "CustomerID")])]⟩

/-- Two tables, no relationships: a disconnected model. -/
def mDisconnected : DatabaseSchema := ⟨["A", "B"], [], []⟩

/-- A one-table model. -/
def mSingle : DatabaseSchema := ⟨["T"], [], []⟩

/-- A backend whose table-list query succeeds but whose per-table catalog
queries all raise. -/
def bPerTableFail : CatalogBackend :=
  ⟨.ok ["T"], fun _ => .error "boom", fun _ => .error "boom"⟩

/-- The Scenario 5 backend: every catalog query raises. -/
def bAllFail : CatalogBackend :=
  ⟨.error "fail", fun _ => .error "fail", fun _ => .error "fail"⟩

/-- The Scenario 4 schema: tables `Orders` and `OrderDetails`, no
identifier containing "sold". -/
def mSold : DatabaseSchema := ⟨["Orders", "OrderDetails"], [], []⟩

/-- A close-match oracle returning no suggestions (used to instantiate
theorems; the claims hold for every oracle). -/
def cmNone : String → List String → List String := fun _ _ => []

/-!
Helper lemmas about the comment stripper: a whitespace-only input stays
whitespace-only through every stage, so a non-empty cleaned text forces a
non-empty raw text.
-/

/-- Whitespace characters are not dashes. -/
theorem isWs_ne_dash {c : Char} (h : isWs c = true) : c ≠ '-' := by
  intro he; subst he; revert h; decide

/-- Whitespace characters are not `'/'`. -/
theorem isWs_ne_slash {c : Char} (h : isWs c = true) : c ≠ '/' := by
  intro he; subst he; revert h; decide

/-- If every character surviving `dropWs` is whitespace, every character of
the input is whitespace. -/
theorem all_ws_of_dropWs (l : List Char) (h : ∀ c ∈ dropWs l, isWs c = true) :
    ∀ c ∈ l, isWs c = true := by
  induction l with
  | nil => simp
  | cons c r ih =>
    by_cases hc : isWs c = true
    · intro x hx
      cases hx with
      | head => exact hc
      | tail _ hx2 =>
        refine ih ?_ x hx2
        rw [dropWs, if_pos hc] at h
        exact h
    · rw [dropWs, if_neg hc] at h
      exact absurd (h c (by simp)) hc

/-- A list trimming to `[]` is all whitespace. -/
theorem all_ws_of_trim_nil (l : List Char) (h : trimChars l = []) :
    ∀ c ∈ l, isWs c = true := by
  unfold trimChars at h
  rw [List.reverse_eq_nil_iff] at h
  have h1 : ∀ c ∈ (dropWs l).reverse, isWs c = true :=
    all_ws_of_dropWs _ (by rw [h]; simp)
  have h2 : ∀ c ∈ dropWs l, isWs c = true := by
    intro c hc; exact h1 c (List.mem_reverse.mpr hc)
  exact all_ws_of_dropWs l h2

/-- `dropWs` deletes an all-whitespace list. -/
theorem dropWs_of_all_ws (l : List Char) (h : ∀ c ∈ l, isWs c = true) :
    dropWs l = [] := by
  induction l with
  | nil => rfl
  | cons c r ih =>
    rw [dropWs, if_pos (h c (by simp))]
    exact ih (fun x hx => h x (List.mem_cons_of_mem c hx))

/-- `trimChars` deletes an all-whitespace list. -/
theorem trimChars_of_all_ws (l : List Char) (h : ∀ c ∈ l, isWs c = true) :
    trimChars l = [] := by
  unfold trimChars
  rw [dropWs_of_all_ws l h]
  simp [dropWs]

/-- The line-comment stripper is the identity on whitespace-only text. -/
theorem stripLineAux_of_all_ws (l : List Char) (h : ∀ c ∈ l, isWs c = true) :
    stripLineAux false l = l := by
  induction l with
  | nil => rfl
  | cons c r ih =>
    have hc := h c (by simp)
    have hne := isWs_ne_dash hc
    have hr : stripLineAux false r = r :=
      ih (fun x hx => h x (List.mem_cons_of_mem c hx))
    rw [stripLineAux.eq_def]
    split <;> simp_all

/-- The block-comment stripper is the identity on whitespace-only text. -/
theorem stripBlockF_of_all_ws (n : Nat) (l : List Char) (h : ∀ c ∈ l, isWs c = true) :
    stripBlockF n l = l := by
  induction n generalizing l with
  | zero => rfl
  | succ n ih =>
    cases l with
    | nil => rfl
    | cons c r =>
      have hc := h c (by simp)
      have hne : (c == '/') = false := by
        simp only [beq_eq_false_iff_ne, ne_eq]
        exact isWs_ne_slash hc
      have hr : stripBlockF n r = r :=
        ih r (fun x hx => h x (List.mem_cons_of_mem c hx))
      rw [stripBlockF.eq_def]
      split <;> simp_all

/-- A whitespace-only raw SQL string cleans to the empty string. -/
theorem strip_of_trim_nil (sql : String) (h : trimChars sql.toList = []) :
    strip_sql_comments sql = "" := by
  have hws := all_ws_of_trim_nil _ h
  unfold strip_sql_comments
  rw [stripLineAux_of_all_ws _ hws, stripBlockF_of_all_ws _ _ hws,
    trimChars_of_all_ws _ hws]

/-- C1 (amended): with a live connection, whenever the comment-stripped
SQL still contains a denylisted keyword as a case-insensitive whole word,
`execute_select` returns a warning and never executes the statement, and
when the multi-statement check does not fire first, the warning names
that keyword. -/
theorem execute_select_blocks_dangerous (sql w : String)
    (hd : contains_dangerous_sql (strip_sql_comments sql) = some w) :
    (∃ msg, execute_select true sql = .warning msg) ∧
    (hasExtraSemicolon (strip_sql_comments sql) = false →
      execute_select true sql = .warning (dangerousMessage w)) := by
  by_cases htrim : trimChars sql.data = []
  · rw [strip_of_trim_nil sql htrim] at hd
    rw [show contains_dangerous_sql "" = none from by decide] at hd
    exact Option.noConfusion hd
  · constructor
    · by_cases hsemi : hasExtraSemicolon (strip_sql_comments sql) = true
      · exact ⟨multiStatementMessage, by simp [execute_select, htrim, hsemi]⟩
      · simp only [Bool.not_eq_true] at hsemi
        exact ⟨dangerousMessage w, by simp [execute_select, htrim, hsemi, hd]⟩
    · intro hsemi
      simp [execute_select, htrim, hsemi, hd]

/-- C1 witness: a raw `drop table t` is refused with a warning naming
`DROP`. -/
theorem execute_select_blocks_dangerous_witness :
    execute_select true "drop table t" = .warning (dangerousMessage "DROP") :=
  (execute_select_blocks_dangerous "drop table t" "DROP" (by decide)).2 (by decide)

/-- C1 counterexample: the raw SQL `SELECT 1 -- drop table x` contains the
denylisted keyword `drop` as a whole word, yet `execute_select` does not
warn — the comment is stripped first and the statement is executed. -/
theorem dangerous_keyword_in_comment_executes :
    contains_dangerous_sql "SELECT 1 -- drop table x" = some "DROP" ∧
    execute_select true "SELECT 1 -- drop table x" = .executed "SELECT 1" :=
  ⟨by decide, by decide⟩

/-- C2: with a live connection, any SQL whose comment-stripped text still
contains a semicolon after trailing semicolons are trimmed is refused
with the multi-statement warning, whatever else the text contains; in
particular `SELECT * FROM t; DROP TABLE t;` is refused this way. -/
theorem execute_select_multi_statement :
    (∀ sql, hasExtraSemicolon (strip_sql_comments sql) = true →
      execute_select true sql = .warning multiStatementMessage) ∧
    execute_select true "SELECT * FROM t; DROP TABLE t;" = .warning multiStatementMessage := by
  constructor
  · intro sql hsemi
    by_cases htrim : trimChars sql.data = []
    · rw [strip_of_trim_nil sql htrim] at hsemi
      exact absurd hsemi (by decide)
    · simp [execute_select, htrim, hsemi]
  · decide

/-- C2 witness: a concrete two-statement input is refused with the
multi-statement warning. -/
theorem execute_select_multi_statement_witness :
    execute_select true "SELECT a FROM t; SELECT b FROM u" = .warning multiStatementMessage :=
  execute_select_multi_statement.1 _ (by decide)

/-- C3 counterexample: with no live connection, `execute_select` returns
an Error outcome (`"Not connected to database"`), not a Warning. -/
theorem execute_select_no_connection_cex :
    execute_select false "SELECT 1" = .error "Not connected to database" ∧
    ∀ msg, execute_select false "SELECT 1" ≠ .warning msg := by
  refine ⟨by decide, ?_⟩
  intro msg h
  rw [show execute_select false "SELECT 1" = .error "Not connected to database" from by decide] at h
  exact ExecOutcome.noConfusion h

/-- C3 (amended): with no live connection every input is rejected
immediately, with an Error outcome. -/
theorem execute_select_no_connection (sql : String) :
    execute_select false sql = .error "Not connected to database" := rfl

/-!
Lemmas about the join-path BFS: the four shapes of one loop iteration,
what `expandPushes` can enqueue, and the counting lemmas behind the
termination measure.
-/

/-- An exhausted queue returns `None`. -/
theorem step_nil {m : DatabaseSchema} {tg vis : List String} :
    step m ⟨[], tg, vis⟩ = .inr none := rfl

/-- Reaching the last target returns the accumulated path. -/
theorem step_hit_done {m : DatabaseSchema} {c : String} {p : List JoinStep}
    {rest : List (String × List JoinStep)} {tg vis : List String}
    (h1 : c ∈ tg) (h2 : tg.erase c = []) :
    step m ⟨(c, p) :: rest, tg, vis⟩ = .inr (some p) := by
  simp [step, h1, h2]

/-- Reaching a target with targets left restarts the queue from the hub
and resets the visited set, then expands the hub. -/
theorem step_hit_more {m : DatabaseSchema} {c : String} {p : List JoinStep}
    {rest : List (String × List JoinStep)} {tg vis : List String}
    (h1 : c ∈ tg) (h2 : tg.erase c ≠ []) :
    step m ⟨(c, p) :: rest, tg, vis⟩ =
      .inl ⟨(c, p) :: expandPushes m c p [c], tg.erase c, [c]⟩ := by
  simp [step, h1, h2]

/-- A visited non-target is skipped. -/
theorem step_skip {m : DatabaseSchema} {c : String} {p : List JoinStep}
    {rest : List (String × List JoinStep)} {tg vis : List String}
    (h1 : c ∉ tg) (h2 : c ∈ vis) :
    step m ⟨(c, p) :: rest, tg, vis⟩ = .inl ⟨rest, tg, vis⟩ := by
  simp [step, h1, h2]

/-- An unvisited non-target is visited and expanded. -/
theorem step_visit {m : DatabaseSchema} {c : String} {p : List JoinStep}
    {rest : List (String × List JoinStep)} {tg vis : List String}
    (h1 : c ∉ tg) (h2 : c ∉ vis) :
    step m ⟨(c, p) :: rest, tg, vis⟩ =
      .inl ⟨rest ++ expandPushes m c p (c :: vis), tg, c :: vis⟩ := by
  simp [step, h1, h2]

/-- Unfolding `runBfs` on a returning iteration. -/
theorem runBfs_inr {m : DatabaseSchema} {s : BfsState} {r : Option (List JoinStep)}
    {n : Nat} (h : step m s = .inr r) : runBfs m (n + 1) s = some r := by
  simp [runBfs, h]

/-- Unfolding `runBfs` on a continuing iteration. -/
theorem runBfs_inl {m : DatabaseSchema} {s s' : BfsState} {n : Nat}
    (h : step m s = .inl s') : runBfs m (n + 1) s = runBfs m n s' := by
  simp [runBfs, h]

/-- A definite answer of the fueled loop is stable under more fuel: the
fuel is an artifact of the embedding, not of the program. -/
theorem runBfs_mono {m : DatabaseSchema} {r : Option (List JoinStep)} :
    ∀ {n : Nat} {s : BfsState}, runBfs m n s = some r →
      ∀ k, n ≤ k → runBfs m k s = some r := by
  intro n
  induction n with
  | zero => intro s h; exact absurd h (by simp [runBfs])
  | succ n ih =>
    intro s h k hk
    obtain ⟨k', rfl⟩ : ∃ k', k = k' + 1 := ⟨k - 1, by omega⟩
    cases hs : step m s with
    | inr r' =>
      rw [runBfs_inr hs] at h
      rw [runBfs_inr hs]
      exact h
    | inl s' =>
      rw [runBfs_inl hs] at h
      rw [runBfs_inl hs]
      exact ih h k' (by omega)

/-- `memB` is list membership. -/
theorem memB_eq_true {x : String} {l : List String} : memB x l = true ↔ x ∈ l := by
  induction l with
  | nil => simp [memB]
  | cons a l ih => simp [memB, ih]

/-- Membership in `catMap`. -/
theorem mem_catMap {f : α → List β} {x : β} {l : List α} :
    x ∈ catMap f l ↔ ∃ a ∈ l, x ∈ f a := by
  induction l with
  | nil => simp [catMap]
  | cons a l ih => simp [catMap, ih]

/-- Everything in `relGet` comes from some relationships entry. -/
theorem relGet_node_mem {m : DatabaseSchema} {t : String} {e : String × String × String}
    (he : e ∈ relGet m t) : e.1 ∈ pushUniv m := by
  unfold relGet at he
  cases hf : m.relationships.find? (fun pr => pr.1 == t) with
  | none => rw [hf] at he; cases he
  | some pr =>
    rw [hf] at he
    exact List.mem_append.mpr (Or.inr (mem_catMap.mpr
      ⟨pr, List.mem_of_find?_eq_some hf, List.mem_map.mpr ⟨e, he, rfl⟩⟩))

/-- The two shapes of a queue entry produced by `expandPushes`. -/
theorem expand_cases {m : DatabaseSchema} {c : String} {p : List JoinStep}
    {vis : List String} {x : String × List JoinStep}
    (hx : x ∈ expandPushes m c p vis) :
    (∃ e ∈ relGet m c, x = (e.1, p ++ [(c, e.1, e.2.1, e.2.2)])) ∨
    (∃ t ∈ m.tables, ∃ e ∈ relGet m t, e.1 = c ∧ x = (t, p ++ [(c, t, e.2.2, e.2.1)])) := by
  unfold expandPushes at hx
  rcases List.mem_append.mp hx with h | h
  · rcases List.mem_map.mp h with ⟨e, he, rfl⟩
    exact Or.inl ⟨e, (List.mem_filter.mp he).1, rfl⟩
  · rcases mem_catMap.mp h with ⟨t, ht, hxt⟩
    rcases List.mem_map.mp hxt with ⟨e, he, rfl⟩
    have he' := List.mem_filter.mp he
    exact Or.inr ⟨t, (List.mem_filter.mp ht).1, e, he'.1, eq_of_beq he'.2, rfl⟩

/-- Every step appended by `expandPushes` is a real edge, so edge-only
paths stay edge-only. -/
theorem expand_isEdge {m : DatabaseSchema} {c : String} {p : List JoinStep}
    {vis : List String} {x : String × List JoinStep}
    (hx : x ∈ expandPushes m c p vis) (hp : ∀ st ∈ p, isEdge m st) :
    ∀ st ∈ x.2, isEdge m st := by
  rcases expand_cases hx with ⟨e, he, rfl⟩ | ⟨t, _, e, he, hec, rfl⟩
  · intro st hst
    rcases List.mem_append.mp hst with h | h
    · exact hp st h
    · have : st = (c, e.1, e.2.1, e.2.2) := by simpa using h
      rw [this]
      exact Or.inl he
  · intro st hst
    rcases List.mem_append.mp hst with h | h
    · exact hp st h
    · have : st = (c, t, e.2.2, e.2.1) := by simpa using h
      rw [this]
      refine Or.inr ?_
      show (c, e.2.1, e.2.2) ∈ relGet m t
      rw [← hec]
      exact he

/-- Every table enqueued by `expandPushes` lies in `pushUniv`. -/
theorem expand_node {m : DatabaseSchema} {c : String} {p : List JoinStep}
    {vis : List String} {x : String × List JoinStep}
    (hx : x ∈ expandPushes m c p vis) : x.1 ∈ pushUniv m := by
  rcases expand_cases hx with ⟨e, he, rfl⟩ | ⟨t, ht, _, _, _, rfl⟩
  · exact relGet_node_mem he
  · exact List.mem_append.mpr (Or.inl ht)

/-- Every table enqueued by `expandPushes` from `c` is adjacent to `c`. -/
theorem expand_adj {m : DatabaseSchema} {c : String} {p : List JoinStep}
    {vis : List String} {x : String × List JoinStep}
    (hx : x ∈ expandPushes m c p vis) : Adjacent m c x.1 := by
  rcases expand_cases hx with ⟨e, he, rfl⟩ | ⟨t, ht, e, he, hec, rfl⟩
  · exact Or.inl ⟨e, he, rfl⟩
  · exact Or.inr ⟨ht, e, he, hec⟩

/-- A filter with a stronger predicate keeps at most as many elements. -/
theorem length_filter_mono {p r : α → Bool} (l : List α)
    (himp : ∀ x, r x = true → p x = true) :
    (l.filter r).length ≤ (l.filter p).length := by
  induction l with
  | nil => simp
  | cons a l ih =>
    rw [List.filter_cons, List.filter_cons]
    by_cases hr : r a = true
    · rw [if_pos hr, if_pos (himp a hr)]
      simpa using ih
    · rw [if_neg hr]
      by_cases hp : p a = true
      · rw [if_pos hp]
        exact Nat.le_succ_of_le ih
      · rw [if_neg hp]
        exact ih

/-- A filter with a stronger predicate that loses a surviving element
keeps strictly fewer elements. -/
theorem length_filter_strict {p r : α → Bool} (l : List α)
    (himp : ∀ x, r x = true → p x = true) (a : α) (ha : a ∈ l)
    (hpa : p a = true) (hra : r a = false) :
    (l.filter r).length < (l.filter p).length := by
  induction l with
  | nil => cases ha
  | cons b l ih =>
    rw [List.filter_cons, List.filter_cons]
    by_cases hb : b = a
    · subst hb
      rw [if_pos hpa, if_neg (by rw [hra]; exact Bool.false_ne_true)]
      exact Nat.lt_succ_of_le (length_filter_mono l himp)
    · have ha' : a ∈ l := by
        cases ha with
        | head => exact absurd rfl hb
        | tail _ h => exact h
      have hlt := ih ha'
      by_cases hrb : r b = true
      · rw [if_pos hrb, if_pos (himp b hrb)]
        simpa using hlt
      · rw [if_neg hrb]
        by_cases hpb : p b = true
        · rw [if_pos hpb]
          exact Nat.lt_succ_of_lt hlt
        · rw [if_neg hpb]
          exact hlt

/-- Visiting a fresh universe element strictly shrinks the unvisited
count. -/
theorem unvis_visit_lt {u vis : List String} {c : String}
    (hcu : c ∈ u) (hcv : c ∉ vis) : unvis u (c :: vis) < unvis u vis := by
  refine length_filter_strict u ?_ c hcu ?_ ?_
  · intro x hx
    simp only [memB, Bool.not_eq_true', Bool.or_eq_false_iff] at hx ⊢
    exact hx.2
  · simp only [Bool.not_eq_true']
    cases h : memB c vis with
    | false => rfl
    | true => exact absurd (memB_eq_true.mp h) hcv
  · simp [memB]

/-- The unvisited count is bounded by the universe size. -/
theorem unvis_le (u vis : List String) : unvis u vis ≤ u.length :=
  List.length_filter_le _ u

/-- `dedup` of a non-empty constant list is the singleton. -/
theorem dedup_all_eq {t0 : String} :
    ∀ {rest : List String}, rest ≠ [] → (∀ x ∈ rest, x = t0) → rest.dedup = [t0] := by
  intro rest
  induction rest with
  | nil => intro h; exact absurd rfl h
  | cons a l ih =>
    intro _ hall
    have ha : a = t0 := hall a (by simp)
    subst ha
    cases l with
    | nil => rfl
    | cons b l2 =>
      have hb : b = a := hall b (by simp)
      have hmem : a ∈ b :: l2 := by rw [hb]; exact List.mem_cons_self a l2
      rw [List.dedup_cons_of_mem hmem]
      exact ih (by simp) (fun x hx => hall x (List.mem_cons_of_mem a hx))

/-- Termination of the BFS loop, by nested induction on the measure
`(targets.length * (|u| + 1) + unvisited count, queue length)`: hitting a
target strictly shrinks the first summand even though the visited set is
reset (the unvisited count is bounded by `|u|`), visiting a fresh table
shrinks the unvisited count, and skipping a visited table shrinks the
queue.  `u` is any list containing every table `expandPushes` can
enqueue. -/
theorem run_term_aux (m : DatabaseSchema) (u : List String)
    (hU : ∀ x ∈ pushUniv m, x ∈ u) :
    ∀ (A C : Nat) (qu : List (String × List JoinStep)) (tg vis : List String),
      (∀ e ∈ qu, e.1 ∈ u) →
      tg.length * (u.length + 1) + unvis u vis < A →
      qu.length < C →
      ∃ n r, runBfs m n ⟨qu, tg, vis⟩ = some r := by
  intro A
  induction A with
  | zero => intro C qu tg vis _ hA _; exact absurd hA (Nat.not_lt_zero _)
  | succ A ihA =>
    intro C
    induction C with
    | zero => intro qu tg vis _ _ hC; exact absurd hC (Nat.not_lt_zero _)
    | succ C ihC =>
      intro qu tg vis hq hA hC
      cases qu with
      | nil => exact ⟨1, none, runBfs_inr step_nil⟩
      | cons e rest =>
        obtain ⟨c, p⟩ := e
        have hcu : c ∈ u := hq (c, p) (by simp)
        by_cases h1 : c ∈ tg
        · by_cases h2 : tg.erase c = []
          · exact ⟨1, some p, runBfs_inr (step_hit_done h1 h2)⟩
          · have hq' : ∀ e ∈ (c, p) :: expandPushes m c p [c], e.1 ∈ u := by
              intro e he
              rcases List.mem_cons.mp he with rfl | he2
              · exact hcu
              · exact hU _ (expand_node he2)
            have htgpos : 0 < tg.length := by
              cases tg with
              | nil => cases h1
              | cons a l => simp
            have hA' : (tg.erase c).length * (u.length + 1) + unvis u [c] < A := by
              have hlen : (tg.erase c).length = tg.length - 1 := List.length_erase_of_mem h1
              obtain ⟨t', ht'⟩ : ∃ t', tg.length = t' + 1 :=
                ⟨tg.length - 1, (Nat.succ_pred_eq_of_pos htgpos).symm⟩
              have hstep1 : (tg.erase c).length * (u.length + 1) + unvis u [c] <
                  tg.length * (u.length + 1) := by
                rw [hlen, ht']
                simp only [Nat.add_sub_cancel, Nat.succ_mul]
                exact Nat.add_lt_add_left (Nat.lt_succ_of_le (unvis_le u [c])) _
              have hstep2 : tg.length * (u.length + 1) ≤ A :=
                Nat.le_of_lt_succ (Nat.lt_of_le_of_lt (Nat.le_add_right _ _) hA)
              exact Nat.lt_of_lt_of_le hstep1 hstep2
            obtain ⟨n, r, hrun⟩ := ihA (((c, p) :: expandPushes m c p [c]).length + 1)
              ((c, p) :: expandPushes m c p [c]) (tg.erase c) [c] hq' hA' (Nat.lt_succ_self _)
            exact ⟨n + 1, r, by rw [runBfs_inl (step_hit_more h1 h2), hrun]⟩
        · by_cases h2 : c ∈ vis
          · obtain ⟨n, r, hrun⟩ := ihC rest tg vis
              (fun e he => hq e (List.mem_cons_of_mem _ he)) hA
              (Nat.lt_of_succ_lt_succ (by simpa using hC))
            exact ⟨n + 1, r, by rw [runBfs_inl (step_skip h1 h2), hrun]⟩
          · have hq' : ∀ e ∈ rest ++ expandPushes m c p (c :: vis), e.1 ∈ u := by
              intro e he
              rcases List.mem_append.mp he with h | h
              · exact hq e (List.mem_cons_of_mem _ h)
              · exact hU _ (expand_node h)
            have hA' : tg.length * (u.length + 1) + unvis u (c :: vis) < A := by
              have hdec : tg.length * (u.length + 1) + unvis u (c :: vis) <
                  tg.length * (u.length + 1) + unvis u vis :=
                Nat.add_lt_add_left (unvis_visit_lt hcu h2) _
              exact Nat.lt_of_lt_of_le hdec (Nat.le_of_lt_succ hA)
            obtain ⟨n, r, hrun⟩ := ihA ((rest ++ expandPushes m c p (c :: vis)).length + 1)
              (rest ++ expandPushes m c p (c :: vis)) tg (c :: vis) hq' hA' (Nat.lt_succ_self _)
            exact ⟨n + 1, r, by rw [runBfs_inl (step_visit h1 h2), hrun]⟩

/-- A plan returned by the BFS only extends edge-only paths with real
edges, so every step of the returned plan is an edge. -/
theorem runBfs_edges (m : DatabaseSchema) :
    ∀ (fuel : Nat) (qu : List (String × List JoinStep)) (tg vis : List String)
      (plan : List JoinStep),
      (∀ e ∈ qu, ∀ st ∈ e.2, isEdge m st) →
      runBfs m fuel ⟨qu, tg, vis⟩ = some (some plan) →
      ∀ st ∈ plan, isEdge m st := by
  intro fuel
  induction fuel with
  | zero => intro qu tg vis plan _ h; exact absurd h (by simp [runBfs])
  | succ n ih =>
    intro qu tg vis plan hq hrun
    cases qu with
    | nil =>
      rw [runBfs_inr step_nil] at hrun
      simp at hrun
    | cons e rest =>
      obtain ⟨c, p⟩ := e
      by_cases h1 : c ∈ tg
      · by_cases h2 : tg.erase c = []
        · rw [runBfs_inr (step_hit_done h1 h2)] at hrun
          have hp : p = plan := by simpa using hrun
          subst hp
          exact hq (c, p) (by simp)
        · rw [runBfs_inl (step_hit_more h1 h2)] at hrun
          refine ih _ _ _ _ ?_ hrun
          intro e' he'
          rcases List.mem_cons.mp he' with rfl | he2
          · exact hq (c, p) (by simp)
          · exact expand_isEdge he2 (hq (c, p) (by simp))
      · by_cases h2 : c ∈ vis
        · rw [runBfs_inl (step_skip h1 h2)] at hrun
          exact ih _ _ _ _ (fun e' he' => hq e' (List.mem_cons_of_mem _ he')) hrun
        · rw [runBfs_inl (step_visit h1 h2)] at hrun
          refine ih _ _ _ _ ?_ hrun
          intro e' he'
          rcases List.mem_append.mp he' with h | h
          · exact hq e' (List.mem_cons_of_mem _ h)
          · exact expand_isEdge h (hq (c, p) (by simp))

/-- If the BFS returns a plan, every table of the initial target list is
reachable from the start table along the undirected relationship graph:
queued tables are always reachable, and a target is only resolved when it
is popped from the queue. -/
theorem runBfs_reach (m : DatabaseSchema) (t0 : String) (tInit : List String) :
    ∀ (fuel : Nat) (qu : List (String × List JoinStep)) (tg vis : List String)
      (plan : List JoinStep),
      (∀ e ∈ qu, ReachableFrom m t0 e.1) →
      (∀ x ∈ tInit, x ∉ tg → ReachableFrom m t0 x) →
      runBfs m fuel ⟨qu, tg, vis⟩ = some (some plan) →
      ∀ x ∈ tInit, ReachableFrom m t0 x := by
  intro fuel
  induction fuel with
  | zero => intro qu tg vis plan _ _ h; exact absurd h (by simp [runBfs])
  | succ n ih =>
    intro qu tg vis plan hq htg hrun
    cases qu with
    | nil =>
      rw [runBfs_inr step_nil] at hrun
      simp at hrun
    | cons e rest =>
      obtain ⟨c, p⟩ := e
      have hreachc : ReachableFrom m t0 c := hq (c, p) (by simp)
      by_cases h1 : c ∈ tg
      · by_cases h2 : tg.erase c = []
        · intro x hx
          by_cases hxtg : x ∈ tg
          · have hxc : x = c := by
              by_contra hne
              have hx2 : x ∈ tg.erase c := (List.mem_erase_of_ne hne).mpr hxtg
              rw [h2] at hx2
              cases hx2
            rw [hxc]
            exact hreachc
          · exact htg x hx hxtg
        · rw [runBfs_inl (step_hit_more h1 h2)] at hrun
          refine ih _ _ _ plan ?_ ?_ hrun
          · intro e' he'
            rcases List.mem_cons.mp he' with rfl | he2
            · exact hreachc
            · exact Relation.ReflTransGen.tail hreachc (expand_adj he2)
          · intro x hx hxtg'
            by_cases hxtg : x ∈ tg
            · have hxc : x = c := by
                by_contra hne
                exact hxtg' ((List.mem_erase_of_ne hne).mpr hxtg)
              rw [hxc]
              exact hreachc
            · exact htg x hx hxtg
      · by_cases h2 : c ∈ vis
        · rw [runBfs_inl (step_skip h1 h2)] at hrun
          exact ih _ _ _ plan (fun e' he' => hq e' (List.mem_cons_of_mem _ he')) htg hrun
        · rw [runBfs_inl (step_visit h1 h2)] at hrun
          refine ih _ _ _ plan ?_ htg hrun
          intro e' he'
          rcases List.mem_append.mp he' with h | h
          · exact hq e' (List.mem_cons_of_mem _ h)
          · exact Relation.ReflTransGen.tail hreachc (expand_adj h)

/-- In the relationship-free model every adjacency is impossible, so
reachability collapses to equality. -/
theorem mDisconnected_reach_eq {u v : String}
    (h : ReachableFrom mDisconnected u v) : u = v := by
  induction h with
  | refl => rfl
  | tail _ hadj ih =>
    exfalso
    rcases hadj with ⟨e, he, _⟩ | ⟨_, e, he, _⟩ <;> simp [relGet, mDisconnected] at he

/-- C4: every step of a plan returned by `find_join_path` is a real
relationship edge of the model in either direction, and on the Scenario 1
model the returned plan is exactly the one expected step. -/
theorem find_join_path_steps_are_edges :
    (∀ (m : DatabaseSchema) (fuel : Nat) (ts : List String) (plan : List JoinStep),
      find_join_path m fuel ts = some (some plan) → ∀ st ∈ plan, isEdge m st) ∧
    (∀ fuel, 2 ≤ fuel → find_join_path mScenario fuel ["Orders", "Customers"] =
      some (some [("Orders", "Customers", "CustomerID", "CustomerID")])) := by
  constructor
  · intro m fuel ts plan h
    match ts with
    | [] => simp [find_join_path] at h
    | [t] => simp [find_join_path] at h
    | t0 :: t1 :: rest =>
      refine runBfs_edges m fuel _ _ _ plan ?_ (by simpa [find_join_path] using h)
      intro e he
      have he' : e = (t0, []) := by simpa using he
      rw [he']
      intro st hst
      cases hst
  · intro fuel hf
    show runBfs mScenario fuel ⟨[("Orders", [])], ["Customers"].dedup, []⟩ =
      some (some [("Orders", "Customers", "CustomerID", "CustomerID")])
    exact runBfs_mono (by decide) fuel hf

/-- C4 witness: the single step of the Scenario 1 plan is an edge of the
Scenario 1 model. -/
theorem find_join_path_steps_are_edges_witness :
    isEdge mScenario ("Orders", "Customers", "CustomerID", "CustomerID") :=
  find_join_path_steps_are_edges.1 mScenario 2 ["Orders", "Customers"]
    [("Orders", "Customers", "CustomerID", "CustomerID")] (by decide)
    ("Orders", "Customers", "CustomerID", "CustomerID") (by simp)

/-- C5: `find_join_path` terminates on every finite model and every
request: some fuel makes the fueled loop return a definite answer. -/
theorem find_join_path_terminates (m : DatabaseSchema) (ts : List String) :
    ∃ fuel r, find_join_path m fuel ts = some r := by
  match ts with
  | [] => exact ⟨0, none, rfl⟩
  | [t] => exact ⟨0, none, rfl⟩
  | t0 :: t1 :: rest =>
    have hU : ∀ x ∈ pushUniv m, x ∈ t0 :: pushUniv m :=
      fun x hx => List.mem_cons_of_mem _ hx
    have hq : ∀ e ∈ [((t0 : String), ([] : List JoinStep))], e.1 ∈ t0 :: pushUniv m := by
      intro e he
      have he' : e = (t0, []) := by simpa using he
      rw [he']
      exact List.mem_cons_self _ _
    obtain ⟨n, r, h⟩ := run_term_aux m (t0 :: pushUniv m) hU
      ((t1 :: rest).dedup.length * ((t0 :: pushUniv m).length + 1) +
        unvis (t0 :: pushUniv m) [] + 1)
      2 [(t0, [])] (t1 :: rest).dedup [] hq (Nat.lt_succ_self _) (by simp)
    exact ⟨n, r, by simpa [find_join_path] using h⟩

/-- C6: `find_join_path` returns `None` on fewer than two requested
tables, and returns `None` (never a present plan) whenever some requested
table is not reachable from the start table in the relationship graph,
i.e. whenever the frontier must be exhausted before all targets resolve. -/
theorem find_join_path_none_cases :
    (∀ (m : DatabaseSchema) (fuel : Nat) (ts : List String),
      ts.length < 2 → find_join_path m fuel ts = some none) ∧
    (∀ (m : DatabaseSchema) (fuel : Nat) (t0 : String) (rest : List String)
      (t : String) (r : Option (List JoinStep)),
      t ∈ rest → ¬ ReachableFrom m t0 t →
      find_join_path m fuel (t0 :: rest) = some r → r = none) := by
  constructor
  · intro m fuel ts hlen
    match ts with
    | [] => rfl
    | [t] => rfl
    | a :: b :: l => exact absurd hlen (by simp)
  · intro m fuel t0 rest t r ht hnr hrun
    match rest with
    | [] => cases ht
    | t1 :: rest' =>
      cases r with
      | none => rfl
      | some plan =>
        exfalso
        apply hnr
        refine runBfs_reach m t0 ((t1 :: rest').dedup) fuel _ _ _ plan ?_ ?_
          (by simpa [find_join_path] using hrun) t (List.mem_dedup.mpr ht)
        · intro e he
          have he' : e = (t0, []) := by simpa using he
          rw [he']
          exact Relation.ReflTransGen.refl
        · intro x hx hnx
          exact absurd hx hnx

/-- C6 witness: a single-table request yields `None`, and on the
two-table relationship-free model the answer is forced to be `None`. -/
theorem find_join_path_none_cases_witness :
    find_join_path mDisconnected 1 ["A"] = some none ∧
    (none : Option (List JoinStep)) = none :=
  ⟨find_join_path_none_cases.1 mDisconnected 1 ["A"] (by decide),
   find_join_path_none_cases.2 mDisconnected 5 "A" ["B"] "B" none (by decide)
     (fun h => absurd (mDisconnected_reach_eq h) (by decide)) (by decide)⟩

/-- C10: when every remaining requested table equals the first one, the
start table is found in the target set on the first iteration with an
empty accumulated path, so `find_join_path` returns the empty plan (not
`None`). -/
theorem find_join_path_empty_plan :
    ∀ (m : DatabaseSchema) (fuel : Nat) (t0 : String) (rest : List String),
      rest ≠ [] → (∀ x ∈ rest, x = t0) →
      find_join_path m (fuel + 1) (t0 :: rest) = some (some []) := by
  intro m fuel t0 rest hne hall
  match rest with
  | [] => exact absurd rfl hne
  | t1 :: rest' =>
    have hd : (t1 :: rest').dedup = [t0] := dedup_all_eq (by simp) hall
    show runBfs m (fuel + 1) ⟨[(t0, [])], (t1 :: rest').dedup, []⟩ = some (some [])
    rw [hd, runBfs_inr (step_hit_done (by simp) (by simp))]

/-- C10 witness: `find_join_path` on `["T", "T"]` returns the empty plan. -/
theorem find_join_path_empty_plan_witness :
    find_join_path mSingle 1 ["T", "T"] = some (some []) :=
  find_join_path_empty_plan mSingle 0 "T" ["T"] (by decide) (by decide)

/-- C7 counterexample: a backend whose table-list query succeeds but
whose every per-table catalog query raises yields a model that still
lists the table (with an empty column list and no relationships) — a
catalog-read failed during introspection, yet the result is not the
empty SchemaModel. -/
theorem get_schema_per_table_failure_cex :
    get_schema none (some bPerTableFail) = ⟨["T"], [("T", [])], []⟩ ∧
    get_schema none (some bPerTableFail) ≠ ⟨[], [], []⟩ :=
  ⟨rfl, by decide⟩

/-- C7 (amended): a failing table-list catalog read — in particular a
backend raising on every catalog query — makes `get_schema` return the
empty SchemaModel instead of propagating the failure; per-table failures
are contained per-table. -/
theorem get_schema_table_list_failure (b : CatalogBackend) (e : String)
    (h : b.listTablesQ = .error e) :
    get_schema none (some b) = ⟨[], [], []⟩ := by
  simp [get_schema, introspect_sqlite, h]

/-- C7 witness: the Scenario 5 backend (every catalog query raises)
introspects to the empty SchemaModel. -/
theorem get_schema_table_list_failure_witness :
    get_schema none (some bAllFail) = ⟨[], [], []⟩ :=
  get_schema_table_list_failure bAllFail "fail" rfl

/-- C8: the single-table draft carries `LIMIT 10` for the three
LIMIT-style dialects, but for SQL Server it carries no row limit at all —
`render_select` is called without a limit, so no `TOP 10` is emitted and
`render_limit` is empty. -/
theorem sql_preview_single_sqlserver_has_no_limit :
    sql_preview_single SQLDialect.sqlserver "Products" = "SELECT\n  *\nFROM [Products]\n" ∧
    hasSub "TOP".toList (sql_preview_single SQLDialect.sqlserver "Products").toList = false ∧
    sql_preview_single SQLDialect.sqlite "Products" =
      "SELECT\n  *\nFROM \"Products\"\nLIMIT 10" ∧
    sql_preview_single SQLDialect.postgres "Products" =
      "SELECT\n  *\nFROM \"Products\"\nLIMIT 10" ∧
    sql_preview_single SQLDialect.mysql "Products" =
      "SELECT\n  *\nFROM `Products`\nLIMIT 10" :=
  ⟨by decide, by decide, by decide, by decide, by decide⟩

/-- C9: discovery resolves in fixed stage order — a non-empty direct
match set wins; otherwise the synonym stage decides; when both are empty
the match set is empty (close-match suggestions never count); and on the
Scenario 4 schema the term `sold` resolves via the synonym path to both
`Orders` and `OrderDetails`, for every close-match oracle. -/
theorem discover_term_stage_order :
    (∀ (cm : String → List String → List String) (m : DatabaseSchema) (term : String),
      stage1 m term ≠ [] → (discover_term cm m term).1 = stage1 m term) ∧
    (∀ (cm : String → List String → List String) (m : DatabaseSchema) (term : String),
      stage1 m term = [] → (discover_term cm m term).1 = stage2 m term) ∧
    (∀ (cm : String → List String → List String) (m : DatabaseSchema) (term : String),
      stage1 m term = [] → stage2 m term = [] → (discover_term cm m term).1 = []) ∧
    (∀ cm : String → List String → List String,
      stage1 mSold "sold" = [] ∧
      "Orders" ∈ (discover_term cm mSold "sold").1 ∧
      "OrderDetails" ∈ (discover_term cm mSold "sold").1) := by
  have hstage : ∀ (cm : String → List String → List String) (m : DatabaseSchema)
      (term : String), stage1 m term = [] →
      (discover_term cm m term).1 = stage2 m term := by
    intro cm m term h1
    simp [discover_term, h1]
  refine ⟨?_, hstage, ?_, ?_⟩
  · intro cm m term h1
    simp [discover_term, h1]
  · intro cm m term h1 h2
    rw [hstage cm m term h1, h2]
  · intro cm
    have h1 : stage1 mSold "sold" = [] := by decide
    refine ⟨h1, ?_, ?_⟩
    · rw [hstage cm mSold "sold" h1]
      decide
    · rw [hstage cm mSold "sold" h1]
      decide

/-- C9 witness: with the empty close-match oracle, the `sold` discovery
match set is the synonym-stage result. -/
theorem discover_term_stage_order_witness :
    (discover_term cmNone mSold "sold").1 = stage2 mSold "sold" :=
  discover_term_stage_order.2.1 cmNone mSold "sold" (by decide)

end SqlWorkbench
